import Mathlib

/-!
# Verification of the key-value store server (`server.cpp`)

Shallow embedding of the server-side data path of the key-value store:
the LRU eviction cache (`LRUCache`), the database connection pool
(`ConnectionPool` / `PooledConnection`), and the per-request handlers
(PUT/GET/DELETE) registered in `ServerApp::setup_routes`, together with
the startup sequence (`ConnectionPool::ConnectionPool`,
`ServerApp::initialize_database`, `main`).
-/

namespace KVStore

/-! ## LRU cache (`class LRUCache`, server.cpp lines 27-80)

The C++ cache keeps a doubly-linked list `cache_items_list_` of
(key, value) pairs ordered from most-recently-used (front) to
least-recently-used (back), plus a `std::map` index `cache_items_map_`
from key to list node.  The index always mirrors the list (both are
updated under one lock), so the state is faithfully represented by the
list alone; map lookups become searches of the list by key. -/

structure LRUCache where
  capacity : Nat
  items : List (String × String)
deriving Repr, DecidableEq

/-- The Boolean test `cache_items_map_.find(key)` performs: does this
entry carry the given key? -/
def keyIs (k : String) : String × String → Bool := fun p => p.1 == k

/-- `LRUCache::get` (lines 31-43): on a hit, splice the node to the
front of the recency list and return its value; on a miss return
not-found and leave everything untouched. -/
def LRUCache.get (c : LRUCache) (k : String) : Option String × LRUCache :=
  match c.items.find? (keyIs k) with
  | none => (none, c)
  | some p => (some p.2, { c with items := p :: c.items.eraseP (keyIs k) })

/-- `LRUCache::put` (lines 45-63): if the key is present, overwrite its
value and splice its node to the front; otherwise, if the cache is at
capacity, erase the back (least-recently-used) node, then emplace the
new entry at the front. -/
def LRUCache.put (c : LRUCache) (k v : String) : LRUCache :=
  if (c.items.find? (keyIs k)).isSome then
    { c with items := (k, v) :: c.items.eraseP (keyIs k) }
  else if c.items.length == c.capacity then
    { c with items := (k, v) :: c.items.dropLast }
  else
    { c with items := (k, v) :: c.items }

/-- `LRUCache::remove` (lines 65-73): erase the entry if present, no-op
otherwise. -/
def LRUCache.remove (c : LRUCache) (k : String) : LRUCache :=
  if (c.items.find? (keyIs k)).isSome then
    { c with items := c.items.eraseP (keyIs k) }
  else c

/-- The keys currently cached, in recency order. -/
def LRUCache.keys (c : LRUCache) : List String := c.items.map Prod.fst

/-- The empty cache of a given capacity (`LRUCache(capacity)`). -/
def LRUCache.empty (cap : Nat) : LRUCache := ⟨cap, []⟩

/-- Well-formedness mirrored from the C++ representation: the map index
admits at most one node per key, so the recency list has pairwise
distinct keys. -/
def LRUCache.WF (c : LRUCache) : Prop := c.keys.Nodup

/-- Fold a list of (key, value) insertions into the cache. -/
def LRUCache.putAll (c : LRUCache) (ps : List (String × String)) : LRUCache :=
  ps.foldl (fun acc p => acc.put p.1 p.2) c

example : ((LRUCache.empty 2).put "a" "1").items = [("a", "1")] := by decide
example :
    ((((LRUCache.empty 2).put "a" "1").put "b" "2").get "a").2.items =
      [("a", "1"), ("b", "2")] := by decide
example :
    (((((LRUCache.empty 2).put "a" "1").put "b" "2").get "a").2.put "c" "3").items =
      [("c", "3"), ("a", "1")] := by decide

/-! ## Cache operation sequences

A client-visible call into the cache, used to state invariants over
arbitrary call sequences. -/

inductive CacheOp where
  | put (k v : String)
  | get (k : String)
  | remove (k : String)
deriving Repr, DecidableEq

/-- Apply one cache call (`get` is modelled by its state effect; its
returned value is recovered separately from `LRUCache.get`). -/
def applyOp (c : LRUCache) : CacheOp → LRUCache
  | .put k v => c.put k v
  | .get k => (c.get k).2
  | .remove k => c.remove k

def applyOps (c : LRUCache) (ops : List CacheOp) : LRUCache :=
  ops.foldl applyOp c

/-! ## Persistent store and request handlers
(`ServerApp::setup_routes`, server.cpp lines 179-266)

The PostgreSQL table `key_value` has a UNIQUE key column, so at its
interface it is a map from key to at most one value.  Each handler runs
one transaction on a pooled connection; a transaction that throws
(connection broken, commit failure, ...) is rolled back by the store,
leaving it unchanged, and is caught by the handler's `catch` block.
The Boolean `txnOk` selects whether that transaction succeeds. -/

def Store := String → Option String

/-- `INSERT ... ON CONFLICT (key_text) DO UPDATE SET value_text = ...`
(lines 192-194): after commit, the table maps `k` to `v`. -/
def storeUpsert (s : Store) (k v : String) : Store :=
  fun x => if x = k then some v else s x

/-- `DELETE FROM key_value WHERE key_text = ...` (line 252): after
commit, the table has no row for `k`. -/
def storeDelete (s : Store) (k : String) : Store :=
  fun x => if x = k then none else s x

/-- HTTP response produced by a handler (`res.status`, `res.body`).
httplib's default status for a handler that only sets content is 200. -/
structure Response where
  status : Nat
  body : String
deriving Repr, DecidableEq

/-- Observable events of one request, in program order: pool checkout
(`PooledConnection` constructor), pool checkin (its destructor),
store transaction commit, and cache mutations/lookups. -/
inductive Ev where
  | acquire
  | release
  | storeCommit
  | storeSelect
  | cachePut
  | cacheRemove
  | cacheGetHit
  | cacheGetMiss
deriving Repr, DecidableEq

/-- State threaded through a handler plus its response and event trace. -/
structure HandlerResult where
  cache : LRUCache
  store : Store
  response : Response
  trace : List Ev

/-- The PUT handler (lines 181-206): acquire a pooled connection,
upsert (key, body) in one transaction, commit, then `cache_.put` and
answer "OK"; the `PooledConnection` destructor releases the connection
at the end of the `try` block, or during unwinding when the
transaction throws, before the `catch` block answers 500. -/
def putHandler (cache : LRUCache) (store : Store) (k v : String) (txnOk : Bool) :
    HandlerResult :=
  if txnOk then
    { cache := cache.put k v
      store := storeUpsert store k v
      response := ⟨200, "OK"⟩
      trace := [.acquire, .storeCommit, .cachePut, .release] }
  else
    { cache := cache
      store := store
      response := ⟨500, "Database error"⟩
      trace := [.acquire, .release] }

/-- The GET handler (lines 208-241): try the cache first (no pool or
store access on a hit); on a miss, acquire a connection, SELECT the
row, commit, and either answer 404 (no row, cache untouched) or answer
the value and populate the cache. -/
def getHandler (cache : LRUCache) (store : Store) (k : String) (txnOk : Bool) :
    HandlerResult :=
  match cache.get k with
  | (some v, cache') =>
    { cache := cache', store := store, response := ⟨200, v⟩, trace := [.cacheGetHit] }
  | (none, cache') =>
    if txnOk then
      match store k with
      | none =>
        { cache := cache', store := store, response := ⟨404, "Not Found"⟩
          trace := [.cacheGetMiss, .acquire, .storeSelect, .storeCommit, .release] }
      | some v =>
        { cache := cache'.put k v, store := store, response := ⟨200, v⟩
          trace := [.cacheGetMiss, .acquire, .storeSelect, .storeCommit, .cachePut, .release] }
    else
      { cache := cache', store := store, response := ⟨500, "Database error"⟩
        trace := [.cacheGetMiss, .acquire, .release] }

/-- The DELETE handler (lines 243-265): acquire a connection, delete
the row in one transaction, commit, then `cache_.remove` and answer
"OK"; on a transaction failure the connection is released during
unwinding and the handler answers 500 with the cache untouched. -/
def deleteHandler (cache : LRUCache) (store : Store) (k : String) (txnOk : Bool) :
    HandlerResult :=
  if txnOk then
    { cache := cache.remove k
      store := storeDelete store k
      response := ⟨200, "OK"⟩
      trace := [.acquire, .storeCommit, .cacheRemove, .release] }
  else
    { cache := cache
      store := store
      response := ⟨500, "Database error"⟩
      trace := [.acquire, .release] }

/-! ## Connection pool (`class ConnectionPool`, lines 83-126, and
`class PooledConnection`, lines 129-152)

The pool's state is its queue of idle connections; a connection not in
the queue is exclusively held by the request that checked it out.
`get` blocks until the queue is nonempty and pops one element;
`release` pushes the held connection back.  The step relation captures
exactly these two transitions. -/

structure PoolState where
  available : Nat
  checkedOut : Nat
deriving Repr, DecidableEq

/-- One pool transition: `ConnectionPool::get` (enabled only once the
queue is nonempty — the condition variable wait) or
`ConnectionPool::release` (performed by a holder of a checked-out
connection). -/
inductive PoolStep : PoolState → PoolState → Prop where
  | acquire (s : PoolState) (h : 0 < s.available) :
      PoolStep s ⟨s.available - 1, s.checkedOut + 1⟩
  | release (s : PoolState) (h : 0 < s.checkedOut) :
      PoolStep s ⟨s.available + 1, s.checkedOut - 1⟩

/-- States reachable from a freshly constructed pool of `n`
connections, all idle. -/
inductive PoolReachable (n : Nat) : PoolState → Prop where
  | init : PoolReachable n ⟨n, 0⟩
  | step {s s' : PoolState} : PoolReachable n s → PoolStep s s' → PoolReachable n s'

/-- Count of pool checkouts in a handler trace. -/
def acquireCount (tr : List Ev) : Nat := tr.countP (· == Ev.acquire)

/-- Count of pool checkins in a handler trace. -/
def releaseCount (tr : List Ev) : Nat := tr.countP (· == Ev.release)

/-! ## Startup (`ConnectionPool::ConnectionPool` lines 85-98,
`ServerApp::initialize_database` lines 269-286, `main` lines 290-299)

The pool constructor tries each of the `pool_size` connections;
`connOk i = true` means connection `i` establishes (`is_open`).  A
failed connection is caught, logged to stderr, and dropped — the loop
continues.  `initialize_database` then checks out a connection (if the
pool is empty, `ConnectionPool::get` waits forever on the condition
variable: no thread will ever release) and creates the table; on
failure it rethrows, `main` catches and returns 1 without listening. -/

/-- Number of pool connections actually established at construction. -/
def connectionsEstablished (connOk : List Bool) : Nat := connOk.countP id

/-- Number of per-connection error lines logged by the pool
constructor (one per failed connection). -/
def connectionErrorsLogged (connOk : List Bool) : Nat := connOk.countP (fun b => !b)

/-- The pool size the `ServerApp` constructor reports on stdout (line
164): it prints the `DB_POOL_SIZE` it requested, regardless of how
many connections were established. -/
def serverReportedPoolSize (requested : Nat) (_connOk : List Bool) : Nat := requested

inductive StartupOutcome where
  | started (poolSize : Nat)
  | fatalExit
  | blocked
deriving Repr, DecidableEq

/-- The startup sequence of `main`: construct the pool, initialize the
database table (`tableOk` = that transaction succeeds), and listen; a
table-initialization failure propagates out of the `ServerApp`
constructor and `main` exits with status 1; with an empty pool the
first checkout inside `initialize_database` blocks forever. -/
def startup (connOk : List Bool) (tableOk : Bool) : StartupOutcome :=
  if connectionsEstablished connOk = 0 then .blocked
  else if tableOk then .started (connectionsEstablished connOk)
  else .fatalExit

/-! ## Basic cache lemmas -/

theorem length_eraseP_of_isSome {l : List (String × String)} {k : String}
    (h : (l.find? (keyIs k)).isSome) :
    (l.eraseP (keyIs k)).length + 1 = l.length := by
  obtain ⟨p, hp⟩ := Option.isSome_iff_exists.mp h
  exact List.length_eraseP_add_one (List.mem_of_find?_eq_some hp) (List.find?_some hp)

theorem LRUCache.capacity_put (c : LRUCache) (k v : String) :
    (c.put k v).capacity = c.capacity := by
  unfold LRUCache.put
  split
  · rfl
  · split <;> rfl

theorem LRUCache.capacity_get (c : LRUCache) (k : String) :
    ((c.get k).2).capacity = c.capacity := by
  unfold LRUCache.get
  rcases c.items.find? (keyIs k) with _ | p <;> rfl

theorem LRUCache.capacity_remove (c : LRUCache) (k : String) :
    (c.remove k).capacity = c.capacity := by
  unfold LRUCache.remove
  split <;> rfl

theorem capacity_applyOp (c : LRUCache) (op : CacheOp) :
    (applyOp c op).capacity = c.capacity := by
  cases op with
  | put k v => exact c.capacity_put k v
  | get k => exact c.capacity_get k
  | remove k => exact c.capacity_remove k

theorem LRUCache.length_get (c : LRUCache) (k : String) :
    ((c.get k).2).items.length = c.items.length := by
  unfold LRUCache.get
  rcases hf : c.items.find? (keyIs k) with _ | p
  · rfl
  · simpa using length_eraseP_of_isSome (l := c.items) (k := k) (by simp [hf])

theorem LRUCache.length_put_le (c : LRUCache) (k v : String)
    (hcap : 0 < c.capacity) (hlen : c.items.length ≤ c.capacity) :
    (c.put k v).items.length ≤ c.capacity := by
  unfold LRUCache.put
  split
  · next hsome =>
    have h := length_eraseP_of_isSome hsome
    simp only [List.length_cons]
    omega
  · split
    · next heq =>
      have h : c.items.length = c.capacity := by simpa using heq
      simp only [List.length_cons, List.length_dropLast]
      omega
    · next hne =>
      have h : c.items.length ≠ c.capacity := by simpa using hne
      simp only [List.length_cons]
      omega

theorem LRUCache.length_remove_le (c : LRUCache) (k : String) :
    (c.remove k).items.length ≤ c.items.length := by
  unfold LRUCache.remove
  split
  · exact List.length_eraseP_le _
  · exact Nat.le_refl _

theorem length_applyOp_le (c : LRUCache) (op : CacheOp)
    (hcap : 0 < c.capacity) (hlen : c.items.length ≤ c.capacity) :
    (applyOp c op).items.length ≤ c.capacity := by
  cases op with
  | put k v => exact c.length_put_le k v hcap hlen
  | get k => rw [applyOp, c.length_get k]; exact hlen
  | remove k => exact Nat.le_trans (c.length_remove_le k) hlen

theorem length_applyOps_le (ops : List CacheOp) :
    ∀ c : LRUCache, 0 < c.capacity → c.items.length ≤ c.capacity →
      (applyOps c ops).items.length ≤ c.capacity := by
  induction ops with
  | nil => intro c _ h; exact h
  | cons op t ih =>
    intro c hcap hlen
    have hc := capacity_applyOp c op
    have := ih (applyOp c op) (hc ▸ hcap) (hc ▸ length_applyOp_le c op hcap hlen)
    simpa [applyOps, hc] using this

/-! ## Key-uniqueness lemmas

The C++ map index guarantees at most one node per key; these lemmas
relate list search by key to key membership under that invariant. -/

theorem find?_keyIs_eq_none_iff {l : List (String × String)} {k : String} :
    l.find? (keyIs k) = none ↔ k ∉ l.map Prod.fst := by
  rw [List.find?_eq_none]
  constructor
  · intro h hk
    obtain ⟨p, hp, hpk⟩ := List.mem_map.mp hk
    exact h p hp (by simp [keyIs, hpk])
  · intro h p hp hkp
    exact h (List.mem_map.mpr ⟨p, hp, by simpa [keyIs] using hkp⟩)

theorem find?_eraseP_keyIs {l : List (String × String)} {k : String}
    (h : (l.map Prod.fst).Nodup) :
    (l.eraseP (keyIs k)).find? (keyIs k) = none := by
  induction l with
  | nil => rfl
  | cons p t ih =>
    simp only [List.map_cons, List.nodup_cons] at h
    by_cases hp : keyIs k p
    · rw [List.eraseP_cons_of_pos hp]
      apply List.find?_eq_none.mpr
      intro q hq hkq
      have hpk : p.1 = k := by simpa [keyIs] using hp
      have hqk : q.1 = k := by simpa [keyIs] using hkq
      exact h.1 (List.mem_map.mpr ⟨q, hq, by rw [hqk, hpk]⟩)
    · rw [show (p :: t).eraseP (keyIs k) = p :: t.eraseP (keyIs k) by
        simp [List.eraseP_cons, hp]]
      rw [List.find?_cons_of_neg _ (by simpa using hp)]
      exact ih h.2

theorem find?_keyIs_of_mem {l : List (String × String)} {q : String × String}
    (hn : (l.map Prod.fst).Nodup) (hq : q ∈ l) : l.find? (keyIs q.1) = some q := by
  induction l with
  | nil => cases hq
  | cons p t ih =>
    simp only [List.map_cons, List.nodup_cons] at hn
    rcases List.mem_cons.mp hq with h | h
    · subst h
      exact List.find?_cons_of_pos _ (by simp [keyIs])
    · have hne : ¬ keyIs q.1 p := by
        simp only [keyIs, beq_iff_eq]
        intro hc
        exact hn.1 (List.mem_map.mpr ⟨q, h, hc.symm⟩)
      rw [List.find?_cons_of_neg _ (by simpa using hne)]
      exact ih hn.2 h

/-! ## Well-formedness is preserved by every cache operation -/

theorem LRUCache.wf_put (c : LRUCache) (k v : String) (h : c.WF) : (c.put k v).WF := by
  unfold LRUCache.WF LRUCache.keys at *
  have hfresh : ∀ {xs : List (String × String)},
      c.items.find? (keyIs k) = none → List.Sublist xs c.items →
      k ∉ (xs.map Prod.fst) := by
    intro xs hnone hsub hk
    exact find?_keyIs_eq_none_iff.mp hnone ((hsub.map Prod.fst).mem hk)
  unfold LRUCache.put
  split
  · next hs =>
    simp only [List.map_cons, List.nodup_cons]
    refine ⟨?_, h.sublist ((List.eraseP_sublist _).map Prod.fst)⟩
    intro hk
    obtain ⟨q, hq, hqk⟩ := List.mem_map.mp hk
    have hnone := find?_eraseP_keyIs (l := c.items) (k := k) h
    exact (List.find?_eq_none.mp hnone) q hq (by simp [keyIs, hqk])
  · next hn =>
    have hnone : c.items.find? (keyIs k) = none := by
      rcases hfind : c.items.find? (keyIs k) with _ | p
      · rfl
      · simp [hfind] at hn
    split
    · simp only [List.map_cons, List.nodup_cons]
      exact ⟨hfresh hnone (List.dropLast_sublist _),
        h.sublist ((List.dropLast_sublist _).map Prod.fst)⟩
    · simp only [List.map_cons, List.nodup_cons]
      exact ⟨hfresh hnone (List.Sublist.refl _), h⟩

theorem LRUCache.wf_get (c : LRUCache) (k : String) (h : c.WF) : ((c.get k).2).WF := by
  unfold LRUCache.WF LRUCache.keys at *
  unfold LRUCache.get
  rcases hf : c.items.find? (keyIs k) with _ | p
  · exact h
  · simp only [List.map_cons, List.nodup_cons]
    have hpk : p.1 = k := by simpa [keyIs] using List.find?_some hf
    refine ⟨?_, h.sublist ((List.eraseP_sublist _).map Prod.fst)⟩
    intro hk
    obtain ⟨q, hq, hqk⟩ := List.mem_map.mp hk
    have hnone := find?_eraseP_keyIs (l := c.items) (k := k) h
    exact (List.find?_eq_none.mp hnone) q hq (by simp [keyIs, hqk, hpk])

theorem LRUCache.wf_remove (c : LRUCache) (k : String) (h : c.WF) : (c.remove k).WF := by
  unfold LRUCache.WF LRUCache.keys at *
  unfold LRUCache.remove
  split
  · exact h.sublist ((List.eraseP_sublist _).map Prod.fst)
  · exact h

theorem wf_applyOp (c : LRUCache) (op : CacheOp) (h : c.WF) : (applyOp c op).WF := by
  cases op with
  | put k v => exact c.wf_put k v h
  | get k => exact c.wf_get k h
  | remove k => exact c.wf_remove k h

/-- Every cache state reachable from a freshly constructed cache is
well-formed, justifying the `WF` hypotheses below. -/
theorem wf_applyOps (ops : List CacheOp) :
    ∀ c : LRUCache, c.WF → (applyOps c ops).WF := by
  induction ops with
  | nil => intro c h; exact h
  | cons op t ih => intro c h; exact ih (applyOp c op) (wf_applyOp c op h)

/-! ## Insertion and lookup lemmas -/

/-- Every branch of `LRUCache::put` leaves the written entry at the
front of the recency list (most-recently-used). -/
theorem LRUCache.put_items_cons (c : LRUCache) (k v : String) :
    ∃ t, (c.put k v).items = (k, v) :: t := by
  unfold LRUCache.put
  split
  · exact ⟨_, rfl⟩
  · split <;> exact ⟨_, rfl⟩

/-- Reading back a just-written key hits and returns the written value. -/
theorem LRUCache.get_put_self (c : LRUCache) (k v : String) :
    ((c.put k v).get k).1 = some v := by
  obtain ⟨t, ht⟩ := c.put_items_cons k v
  unfold LRUCache.get
  rw [ht, List.find?_cons_of_pos _ (by simp [keyIs])]

/-- A lookup that misses returns not-found and leaves the cache
unchanged (entries, values and recency order). -/
theorem LRUCache.get_eq_of_find?_none {c : LRUCache} {k : String}
    (h : c.items.find? (keyIs k) = none) : c.get k = (none, c) := by
  unfold LRUCache.get
  rw [h]

theorem LRUCache.putAll_append (c : LRUCache) (xs ys : List (String × String)) :
    c.putAll (xs ++ ys) = (c.putAll xs).putAll ys := by
  simp [LRUCache.putAll, List.foldl_append]

/-- A `put` of a fresh key into a cache that is strictly below capacity
takes the plain-insert branch. -/
theorem LRUCache.put_fresh_not_full (c : LRUCache) (k v : String)
    (hnone : c.items.find? (keyIs k) = none)
    (hne : c.items.length ≠ c.capacity) :
    c.put k v = { c with items := (k, v) :: c.items } := by
  unfold LRUCache.put
  rw [hnone]
  simp [hne]

/-- Inserting distinct fresh keys while below capacity stacks them in
reverse order at the front of the recency list, evicting nothing. -/
theorem LRUCache.putAll_fresh (ps : List (String × String)) :
    ∀ c : LRUCache,
      (∀ p ∈ ps, c.items.find? (keyIs p.1) = none) →
      (ps.map Prod.fst).Nodup →
      c.items.length + ps.length ≤ c.capacity →
      c.putAll ps = ⟨c.capacity, ps.reverse ++ c.items⟩ := by
  induction ps with
  | nil => intro c _ _ _; rfl
  | cons p t ih =>
    intro c hfresh hnodup hlen
    simp only [List.map_cons, List.nodup_cons] at hnodup
    simp only [List.length_cons] at hlen
    have hne : c.items.length ≠ c.capacity := by omega
    have hc : c.put p.1 p.2 = { c with items := p :: c.items } := by
      rw [c.put_fresh_not_full p.1 p.2 (hfresh p (List.mem_cons_self p t)) hne]
    have hstep : c.putAll (p :: t) = ({ c with items := p :: c.items } : LRUCache).putAll t := by
      show (c.put p.1 p.2).putAll t = _
      rw [hc]
    rw [hstep, ih { c with items := p :: c.items } ?fresh hnodup.2 ?len]
    · simp
    case fresh =>
      intro q hq
      have hne' : ¬ keyIs q.1 p := by
        simp only [keyIs, beq_iff_eq]
        intro hc'
        exact hnodup.1 (List.mem_map.mpr ⟨q, hq, hc'.symm⟩)
      show (p :: c.items).find? (keyIs q.1) = none
      rw [List.find?_cons_of_neg _ (by simpa using hne')]
      exact hfresh q (List.mem_cons_of_mem p hq)
    case len =>
      simp only [List.length_cons]
      omega

/-! ## Claim theorems -/

/-- Claim C1: For a cache of capacity N, after N+1 `put` calls with N+1
distinct keys and no intervening `get`, the first-inserted key is the
one evicted (all later keys remain, with their values); a `get` on any
of the N keys resident after the first N inserts hits, promotes that
key to most-recently-used, and exempts it from the eviction triggered
by the final insert.  In particular, for a capacity-2 cache the
sequence put(a,1), put(b,2), get(a), put(c,3) leaves the cache
containing exactly a:1 and c:3, with b evicted. -/
theorem lru_eviction_and_promotion (N : Nat) (_hN : 1 ≤ N)
    (p₀ plast : String × String) (mid : List (String × String))
    (hlen : (p₀ :: mid).length = N)
    (hnodup : ((p₀ :: mid ++ [plast]).map Prod.fst).Nodup) :
    (p₀.1 ∉ ((LRUCache.empty N).putAll (p₀ :: mid ++ [plast])).keys ∧
      ∀ p ∈ mid ++ [plast], p ∈ ((LRUCache.empty N).putAll (p₀ :: mid ++ [plast])).items) ∧
    (2 ≤ N → ∀ q ∈ p₀ :: mid,
      (((LRUCache.empty N).putAll (p₀ :: mid)).get q.1).1 = some q.2 ∧
      ((((LRUCache.empty N).putAll (p₀ :: mid)).get q.1).2).items.head? = some q ∧
      q ∈ (((((LRUCache.empty N).putAll (p₀ :: mid)).get q.1).2).put plast.1 plast.2).items) ∧
    (((((LRUCache.empty 2).put "a" "1").put "b" "2").get "a").2.put "c" "3").items =
      [("c", "3"), ("a", "1")] := by
  have hmaps : (p₀ :: mid ++ [plast]).map Prod.fst =
      p₀.1 :: (mid.map Prod.fst ++ [plast.1]) := by simp
  rw [hmaps, List.nodup_cons] at hnodup
  have hrest : (plast.1 :: mid.map Prod.fst).Nodup :=
    ((List.perm_append_singleton plast.1 (mid.map Prod.fst)).nodup_iff).mp hnodup.2
  rw [List.nodup_cons] at hrest
  have hp₀ : p₀.1 ∉ mid.map Prod.fst ∧ p₀.1 ≠ plast.1 := by
    constructor
    · intro h; exact hnodup.1 (List.mem_append.mpr (Or.inl h))
    · intro h; exact hnodup.1 (List.mem_append.mpr (Or.inr (by simp [h])))
  have hlast : plast.1 ∉ mid.map Prod.fst := hrest.1
  have hmid : (mid.map Prod.fst).Nodup := hrest.2
  have hmlen : mid.length + 1 = N := by simpa using hlen
  have hc₁ : (LRUCache.empty N).putAll (p₀ :: mid) =
      ⟨N, (p₀ :: mid).reverse ++ []⟩ := by
    apply LRUCache.putAll_fresh
    · intro p _; rfl
    · simp only [List.map_cons, List.nodup_cons]
      exact ⟨hp₀.1, hmid⟩
    · simp only [LRUCache.empty, List.length_cons, List.length_nil]
      omega
  have hc₁' : (LRUCache.empty N).putAll (p₀ :: mid) =
      ⟨N, mid.reverse ++ [p₀]⟩ := by
    rw [hc₁]; simp
  have hfindlast : (mid.reverse ++ [p₀]).find? (keyIs plast.1) = none := by
    apply find?_keyIs_eq_none_iff.mpr
    simp only [List.map_append, List.map_reverse, List.map_cons, List.map_nil,
      List.mem_append, List.mem_reverse, List.mem_singleton]
    push_neg
    exact ⟨hlast, fun h => hp₀.2 h.symm⟩
  have hlenc₁ : (mid.reverse ++ [p₀]).length = N := by
    simp only [List.length_append, List.length_reverse, List.length_cons, List.length_nil]
    omega
  have hput : (⟨N, mid.reverse ++ [p₀]⟩ : LRUCache).put plast.1 plast.2 =
      ⟨N, plast :: mid.reverse⟩ := by
    unfold LRUCache.put
    rw [hfindlast]
    simp only [Option.isSome_none, Bool.false_eq_true, if_false]
    rw [if_pos (by simp [hlenc₁])]
    rw [List.dropLast_concat]
  have hfull : (LRUCache.empty N).putAll (p₀ :: mid ++ [plast]) =
      ⟨N, plast :: mid.reverse⟩ := by
    rw [show (p₀ :: mid ++ [plast]) = (p₀ :: mid) ++ [plast] by simp,
      LRUCache.putAll_append, hc₁']
    exact hput
  refine ⟨⟨?_, ?_⟩, ?_, ?_⟩
  · rw [hfull]
    simp only [LRUCache.keys, List.map_cons, List.map_reverse, List.mem_cons,
      List.mem_reverse]
    push_neg
    exact ⟨hp₀.2, hp₀.1⟩
  · intro p hp
    rw [hfull]
    rcases List.mem_append.mp hp with h | h
    · exact List.mem_cons_of_mem _ (List.mem_reverse.mpr h)
    · simp only [List.mem_singleton] at h
      subst h
      exact List.mem_cons_self _ _
  · intro hN2 q hq
    have hqkey : q.1 ≠ plast.1 := by
      rcases List.mem_cons.mp hq with h | h
      · rw [h]; exact hp₀.2
      · intro he
        exact hlast (he ▸ List.mem_map.mpr ⟨q, h, rfl⟩)
    have hpermpairs : List.Perm (mid.reverse ++ [p₀]) (p₀ :: mid) :=
      (List.perm_append_singleton p₀ mid.reverse).trans ((List.reverse_perm mid).cons p₀)
    have hnodupc₁ : ((mid.reverse ++ [p₀]).map Prod.fst).Nodup := by
      apply ((hpermpairs.map Prod.fst).nodup_iff).mpr
      simp only [List.map_cons, List.nodup_cons]
      exact ⟨hp₀.1, hmid⟩
    have hqmem : q ∈ mid.reverse ++ [p₀] := (hpermpairs.mem_iff).mpr hq
    have hfindq : (mid.reverse ++ [p₀]).find? (keyIs q.1) = some q :=
      find?_keyIs_of_mem hnodupc₁ hqmem
    have hget : ((⟨N, mid.reverse ++ [p₀]⟩ : LRUCache).get q.1) =
        (some q.2, ⟨N, q :: (mid.reverse ++ [p₀]).eraseP (keyIs q.1)⟩) := by
      unfold LRUCache.get
      rw [hfindq]
    rw [hc₁', hget]
    refine ⟨rfl, rfl, ?_⟩
    have hElen : ((mid.reverse ++ [p₀]).eraseP (keyIs q.1)).length + 1 = N :=
      (length_eraseP_of_isSome (k := q.1) (by simp [hfindq])).trans hlenc₁
    have hEne : (mid.reverse ++ [p₀]).eraseP (keyIs q.1) ≠ [] := by
      intro h
      rw [h] at hElen
      simp only [List.length_nil, Nat.zero_add] at hElen
      omega
    have hfind2 : (q :: (mid.reverse ++ [p₀]).eraseP (keyIs q.1)).find? (keyIs plast.1)
        = none := by
      rw [List.find?_cons_of_neg _ (by simp [keyIs, hqkey])]
      apply List.find?_eq_none.mpr
      intro x hx hkx
      exact (List.find?_eq_none.mp hfindlast) x (List.mem_of_mem_eraseP hx) hkx
    show q ∈ ((⟨N, q :: (mid.reverse ++ [p₀]).eraseP (keyIs q.1)⟩ : LRUCache).put
      plast.1 plast.2).items
    unfold LRUCache.put
    rw [hfind2]
    simp only [Option.isSome_none, Bool.false_eq_true, if_false]
    rw [if_pos (by simp only [List.length_cons, beq_iff_eq]; omega)]
    show q ∈ (plast.1, plast.2) ::
      (q :: (mid.reverse ++ [p₀]).eraseP (keyIs q.1)).dropLast
    rw [List.dropLast_cons_of_ne_nil hEne]
    exact List.mem_cons_of_mem _ (List.mem_cons_self _ _)
  · decide

theorem lru_eviction_and_promotion_witness :
    "a" ∉ ((LRUCache.empty 2).putAll (("a", "1") :: [("b", "2")] ++ [("c", "3")])).keys ∧
    ("b", "2") ∈ ((LRUCache.empty 2).putAll (("a", "1") :: [("b", "2")] ++ [("c", "3")])).items ∧
    (((LRUCache.empty 2).putAll (("a", "1") :: [("b", "2")])).get "a").1 = some "1" ∧
    ("a", "1") ∈
      (((((LRUCache.empty 2).putAll (("a", "1") :: [("b", "2")])).get "a").2).put
        "c" "3").items := by
  have h := lru_eviction_and_promotion 2 (by decide) ("a", "1") ("c", "3") [("b", "2")]
    (by decide) (by decide)
  exact ⟨h.1.1, h.1.2 ("b", "2") (by decide), (h.2.1 (by decide) ("a", "1") (by decide)).1,
    (h.2.1 (by decide) ("a", "1") (by decide)).2.2⟩

/-- Claim C2: For every cache constructed with capacity > 0 and every
finite sequence of put, get, and remove calls starting from the empty
cache, the number of entries is at most the capacity after every call
(quantified over every prefix of the call sequence). -/
theorem cache_size_le_capacity (cap : Nat) (hcap : 0 < cap)
    (ops : List CacheOp) (n : Nat) :
    (applyOps (LRUCache.empty cap) (ops.take n)).items.length ≤ cap :=
  length_applyOps_le (ops.take n) (LRUCache.empty cap) hcap (Nat.zero_le cap)

theorem cache_size_le_capacity_witness :
    (applyOps (LRUCache.empty 2)
      ([CacheOp.put "a" "1", CacheOp.put "b" "2", CacheOp.put "c" "3",
        CacheOp.get "a", CacheOp.remove "b"].take 5)).items.length ≤ 2 :=
  cache_size_le_capacity 2 (by decide) _ 5

/-- Claim C3: For every PUT and DELETE request: a failed store
transaction yields status 500 with the cache exactly as before; a
committed transaction always applies the cache mutation (put for PUT,
remove for DELETE); and in the event trace of a successful request the
store commit strictly precedes the cache mutation. -/
theorem put_delete_store_before_cache (cache : LRUCache) (store : Store) (k v : String) :
    ((putHandler cache store k v false).response.status = 500 ∧
      (putHandler cache store k v false).cache = cache ∧
      (deleteHandler cache store k false).response.status = 500 ∧
      (deleteHandler cache store k false).cache = cache) ∧
    ((putHandler cache store k v true).cache = cache.put k v ∧
      (deleteHandler cache store k true).cache = cache.remove k) ∧
    (∃ i j : Nat, i < j ∧
      (putHandler cache store k v true).trace[i]? = some Ev.storeCommit ∧
      (putHandler cache store k v true).trace[j]? = some Ev.cachePut) ∧
    (∃ i j : Nat, i < j ∧
      (deleteHandler cache store k true).trace[i]? = some Ev.storeCommit ∧
      (deleteHandler cache store k true).trace[j]? = some Ev.cacheRemove) :=
  ⟨⟨rfl, rfl, rfl, rfl⟩, ⟨rfl, rfl⟩,
    ⟨1, 2, by decide, rfl, rfl⟩, ⟨1, 2, by decide, rfl, rfl⟩⟩

/-- Each pool transition conserves the total number of connections. -/
theorem poolStep_conserves {s s' : PoolState} (h : PoolStep s s') :
    s'.available + s'.checkedOut = s.available + s.checkedOut := by
  cases h with
  | acquire h =>
    show s.available - 1 + (s.checkedOut + 1) = s.available + s.checkedOut
    omega
  | release h =>
    show s.available + 1 + (s.checkedOut - 1) = s.available + s.checkedOut
    omega

/-- Claim C4: In every reachable pool state, idle plus checked-out
connections equal the constructed pool size; and every handler trace,
on every exit path (success, store error), balances each pool checkout
with exactly one checkin — the scoped `PooledConnection` guarantee. -/
theorem pool_conservation (n : Nat) :
    (∀ s : PoolState, PoolReachable n s → s.available + s.checkedOut = n) ∧
    (∀ (cache : LRUCache) (store : Store) (k v : String) (txnOk : Bool),
      acquireCount (putHandler cache store k v txnOk).trace =
        releaseCount (putHandler cache store k v txnOk).trace ∧
      acquireCount (getHandler cache store k txnOk).trace =
        releaseCount (getHandler cache store k txnOk).trace ∧
      acquireCount (deleteHandler cache store k txnOk).trace =
        releaseCount (deleteHandler cache store k txnOk).trace) := by
  constructor
  · intro s h
    induction h with
    | init => rfl
    | step hr hstep ih => exact (poolStep_conserves hstep).trans ih
  · intro cache store k v txnOk
    refine ⟨?_, ?_, ?_⟩
    · cases txnOk <;> rfl
    · rcases hg : cache.get k with ⟨ov, c2⟩
      cases ov with
      | some w => simp [getHandler, hg, acquireCount, releaseCount]
      | none =>
        cases txnOk with
        | true =>
          rcases hs : store k with _ | w <;>
            simp [getHandler, hg, hs, acquireCount, releaseCount]
        | false => simp [getHandler, hg, acquireCount, releaseCount]
    · cases txnOk <;> rfl

theorem pool_conservation_witness :
    (⟨0, 1⟩ : PoolState).available + (⟨0, 1⟩ : PoolState).checkedOut = 1 ∧
    acquireCount (getHandler (LRUCache.empty 1) (fun _ => none) "a" true).trace =
      releaseCount (getHandler (LRUCache.empty 1) (fun _ => none) "a" true).trace :=
  ⟨(pool_conservation 1).1 ⟨0, 1⟩
      (PoolReachable.step PoolReachable.init (PoolStep.acquire ⟨1, 0⟩ (by decide))),
    ((pool_conservation 1).2 (LRUCache.empty 1) (fun _ => none) "a" "v" true).2.1⟩

/-- Claim C5: In a single-threaded execution, a PUT(k, v) whose store
transaction commits answers status 200, and an immediately following
GET(k) answers 200 with body v (it hits the cache entry the PUT just
wrote, whatever the follow-up transaction flag). -/
theorem put_then_get (cache : LRUCache) (store : Store) (k v : String) (txn2 : Bool) :
    (putHandler cache store k v true).response.status = 200 ∧
    (getHandler (putHandler cache store k v true).cache
      (putHandler cache store k v true).store k txn2).response = ⟨200, v⟩ := by
  refine ⟨rfl, ?_⟩
  show (getHandler (cache.put k v) (storeUpsert store k v) k txn2).response = ⟨200, v⟩
  rcases hg : (cache.put k v).get k with ⟨ov, c2⟩
  have hv : ov = some v := by
    have h := cache.get_put_self k v
    rw [hg] at h
    exact h
  subst hv
  simp [getHandler, hg]

/-- Claim C10: A `get` on a key not present in the cache returns
not-found and leaves the cache state entirely unchanged — same
entries, same values, same recency order. -/
theorem get_miss_frame (c : LRUCache) (k : String) (h : k ∉ c.keys) :
    c.get k = (none, c) :=
  LRUCache.get_eq_of_find?_none (find?_keyIs_eq_none_iff.mpr h)

theorem get_miss_frame_witness :
    (⟨2, [("a", "1")]⟩ : LRUCache).get "b" = (none, ⟨2, [("a", "1")]⟩) :=
  get_miss_frame ⟨2, [("a", "1")]⟩ "b" (by decide)

/-- Claim C6: For every key k, cached beforehand or not, a DELETE(k)
whose store transaction commits answers status 200, and an immediately
following GET(k) answers 404 Not Found. -/
theorem delete_then_get (cache : LRUCache) (store : Store) (k : String) (hwf : cache.WF) :
    (deleteHandler cache store k true).response.status = 200 ∧
    (getHandler (deleteHandler cache store k true).cache
      (deleteHandler cache store k true).store k true).response = ⟨404, "Not Found"⟩ := by
  refine ⟨rfl, ?_⟩
  show (getHandler (cache.remove k) (storeDelete store k) k true).response = ⟨404, "Not Found"⟩
  have hnone : (cache.remove k).items.find? (keyIs k) = none := by
    unfold LRUCache.remove
    split
    · exact find?_eraseP_keyIs hwf
    · next h =>
      rcases hf : cache.items.find? (keyIs k) with _ | p
      · rfl
      · simp [hf] at h
  have hget := LRUCache.get_eq_of_find?_none hnone
  simp [getHandler, hget, storeDelete]

theorem delete_then_get_witness :
    (deleteHandler ⟨2, [("a", "1")]⟩ (fun _ => some "9") "a" true).response.status = 200 ∧
    (getHandler (deleteHandler ⟨2, [("a", "1")]⟩ (fun _ => some "9") "a" true).cache
      (deleteHandler ⟨2, [("a", "1")]⟩ (fun _ => some "9") "a" true).store "a" true).response
        = ⟨404, "Not Found"⟩ :=
  delete_then_get ⟨2, [("a", "1")]⟩ (fun _ => some "9") "a"
    (by unfold LRUCache.WF LRUCache.keys; decide)

/-- Claim C7: For a key k not present in the cache: when the store holds
value V for k, GET(k) answers 200 with V and populates the cache with
(k, V), and a second GET(k) answers the same V with a cache-hit-only
trace (no pool checkout, no store access); when the store holds no
record for k, GET(k) answers 404 and leaves the cache unchanged. -/
theorem read_through_idempotence (cache : LRUCache) (store : Store) (k : String)
    (hmiss : k ∉ cache.keys) :
    (∀ V, store k = some V →
      (getHandler cache store k true).response = ⟨200, V⟩ ∧
      (getHandler cache store k true).cache = cache.put k V ∧
      (getHandler (cache.put k V) store k true).response = ⟨200, V⟩ ∧
      (getHandler (cache.put k V) store k true).trace = [Ev.cacheGetHit]) ∧
    (store k = none →
      (getHandler cache store k true).response = ⟨404, "Not Found"⟩ ∧
      (getHandler cache store k true).cache = cache) := by
  have hget := LRUCache.get_eq_of_find?_none (find?_keyIs_eq_none_iff.mpr hmiss)
  constructor
  · intro V hV
    rcases hg2 : (cache.put k V).get k with ⟨ov, c2⟩
    have hv : ov = some V := by
      have h := cache.get_put_self k V
      rw [hg2] at h
      exact h
    subst hv
    refine ⟨?_, ?_, ?_, ?_⟩ <;> simp [getHandler, hget, hV, hg2]
  · intro h0
    constructor <;> simp [getHandler, hget, h0]

theorem read_through_idempotence_witness :
    (getHandler ⟨2, []⟩ (fun _ => some "1") "a" true).response = ⟨200, "1"⟩ ∧
    (getHandler (LRUCache.put ⟨2, []⟩ "a" "1") (fun _ => some "1") "a" true).trace
      = [Ev.cacheGetHit] ∧
    (getHandler ⟨2, []⟩ (fun _ => none) "b" true).response = ⟨404, "Not Found"⟩ :=
  ⟨((read_through_idempotence ⟨2, []⟩ (fun _ => some "1") "a" (by decide)).1 "1" rfl).1,
    ((read_through_idempotence ⟨2, []⟩ (fun _ => some "1") "a" (by decide)).1 "1" rfl).2.2.2,
    ((read_through_idempotence ⟨2, []⟩ (fun _ => none) "b" (by decide)).2 rfl).1⟩

/-- Claim C8 as stated is false on the code: a connection that fails to
establish at pool construction is logged and dropped, and the server
proceeds to serve traffic with a smaller pool — here one of two
connections fails, the table initializes, and startup completes with a
pool of 1 instead of aborting. -/
theorem startup_pool_failure_not_fatal :
    startup [false, true] true = StartupOutcome.started 1 ∧
    startup [false, true] true ≠ StartupOutcome.fatalExit := by decide

/-- Claim C8 amended: failure to create the backing table at startup is
fatal (startup aborts, the server never listens) provided at least one
pool connection was established; failure to establish individual pool
connections is not fatal — the server starts with a smaller pool — and
if no connection at all is established, startup blocks forever on the
first pool checkout instead of aborting. -/
theorem startup_fatality (connOk : List Bool) (tableOk : Bool) :
    (tableOk = false → 0 < connectionsEstablished connOk →
      startup connOk tableOk = StartupOutcome.fatalExit) ∧
    (tableOk = true → 0 < connectionsEstablished connOk →
      startup connOk tableOk = StartupOutcome.started (connectionsEstablished connOk)) ∧
    (connectionsEstablished connOk = 0 →
      startup connOk tableOk = StartupOutcome.blocked) := by
  unfold startup
  refine ⟨?_, ?_, ?_⟩
  · intro ht hn
    rw [if_neg (by omega), ht, if_neg (by simp)]
  · intro ht hn
    rw [if_neg (by omega), ht, if_pos rfl]
  · intro h
    rw [if_pos h]

theorem startup_fatality_witness :
    startup [true] false = StartupOutcome.fatalExit ∧
    startup [true] true = StartupOutcome.started 1 ∧
    startup [false] true = StartupOutcome.blocked :=
  ⟨(startup_fatality [true] false).1 rfl (by decide),
    (startup_fatality [true] true).2.1 rfl (by decide),
    (startup_fatality [false] true).2.2 (by decide)⟩

theorem countP_id_add_countP_not (l : List Bool) :
    l.countP id + l.countP (fun b => !b) = l.length := by
  induction l with
  | nil => rfl
  | cons b t ih =>
    cases b <;> simp [List.countP_cons] <;> omega

/-- Claim C9 as stated is false on the code: with two connections
requested and one failing, one connection is established, yet the
`ServerApp` constructor reports the requested pool size 2 (it prints
the constant `DB_POOL_SIZE`), not the number actually established. -/
theorem pool_report_counterexample :
    connectionsEstablished [false, true] = 1 ∧
    serverReportedPoolSize 2 [false, true] = 2 ∧
    serverReportedPoolSize 2 [false, true] ≠ connectionsEstablished [false, true] := by
  decide

/-- Claim C9 amended: a connection that fails to establish is dropped
after being logged (one error line per failure; established plus
logged failures account for every requested connection), so the pool
may start smaller than requested — strictly smaller exactly when some
connection failed — but the constructor reports the requested pool
size, not the number actually established. -/
theorem pool_partial_construction (requested : Nat) (connOk : List Bool)
    (hlen : connOk.length = requested) :
    connectionsEstablished connOk + connectionErrorsLogged connOk = requested ∧
    connectionsEstablished connOk ≤ requested ∧
    (0 < connectionErrorsLogged connOk → connectionsEstablished connOk < requested) ∧
    serverReportedPoolSize requested connOk = requested := by
  have h := countP_id_add_countP_not connOk
  unfold connectionsEstablished connectionErrorsLogged serverReportedPoolSize
  refine ⟨by omega, by omega, by omega, rfl⟩

theorem pool_partial_construction_witness :
    connectionsEstablished [false, true] + connectionErrorsLogged [false, true] = 2 ∧
    connectionsEstablished [false, true] ≤ 2 ∧
    (0 < connectionErrorsLogged [false, true] → connectionsEstablished [false, true] < 2) ∧
    serverReportedPoolSize 2 [false, true] = 2 :=
  pool_partial_construction 2 [false, true] rfl

end KVStore
